import Mathlib

/-!
Shallow embedding of the `jot` note store core (`core/src/db.rs`,
`core/src/sync.rs`, `core/src/schema.rs`, `core/src/models.rs`).

The SQLite `notes` table is modelled as a `List Note` (one element per row,
in insertion order).  SQL fragments are translated by their SQLite
semantics: `LIKE` is ASCII-case-insensitive with `%`/`_` wildcards, the
`tags` column stores the serde_json encoding of the tag list, `ORDER BY`
is modelled with `List.insertionSort` on the ordered column.
-/

namespace Jot

/-- `Note` from `core/src/models.rs`. -/
structure Note where
  id : String
  content : String
  tags : List String
  date : Option String
  created_at : Int
  updated_at : Int
  deleted_at : Option Int
deriving DecidableEq

/-- `SearchQuery` from `core/src/models.rs`. -/
structure SearchQuery where
  text : Option String
  tags : List String
  date_from : Option String
  date_to : Option String
  include_deleted : Bool
  limit : Option Nat
deriving DecidableEq

/-- `get_note_by_id` (`db.rs`): `SELECT ... WHERE id = ?1`, first matching row. -/
def getNoteById (s : List Note) (id : String) : Option Note :=
  s.find? (fun n => n.id == id)

/-- SQLite's ASCII-only case folding used by the default `LIKE` (upper → lower). -/
def likeFoldChar (c : Char) : Char :=
  if 'A' ≤ c ∧ c ≤ 'Z' then Char.ofNat (c.toNat + 32) else c

/-- All suffixes of a character list (the list itself down to `[]`). -/
def suffixes : List Char → List (List Char)
  | [] => [[]]
  | c :: cs => (c :: cs) :: suffixes cs

/-- SQLite `LIKE` pattern matching (default, no ESCAPE): `%` matches any run
of characters, `_` exactly one, other characters compare ASCII-case-insensitively.
The whole string must match the whole pattern. -/
def likeMatch : List Char → List Char → Bool
  | [], s => s.isEmpty
  | p :: ps, s =>
    if p = '%' then (suffixes s).any (fun t => likeMatch ps t)
    else
      match s with
      | [] => false
      | c :: cs => (if p = '_' then true else likeFoldChar p == likeFoldChar c) && likeMatch ps cs

def likeMatchStr (pat s : String) : Bool :=
  likeMatch pat.data s.data

/-- Lower-case hex digit, as used by serde_json `\u00XX` escapes. -/
def hexDigit (n : Nat) : Char :=
  if n < 10 then Char.ofNat ('0'.toNat + n) else Char.ofNat ('a'.toNat + n - 10)

/-- serde_json escaping of one character inside a JSON string literal. -/
def jsonEscapeChar (c : Char) : List Char :=
  if c = '"' then ['\\', '"']
  else if c = '\\' then ['\\', '\\']
  else if c = '\x08' then ['\\', 'b']
  else if c = '\x09' then ['\\', 't']
  else if c = '\x0a' then ['\\', 'n']
  else if c = '\x0c' then ['\\', 'f']
  else if c = '\x0d' then ['\\', 'r']
  else if c.toNat < 0x20 then
    ['\\', 'u', '0', '0', hexDigit (c.toNat / 16), hexDigit (c.toNat % 16)]
  else [c]

def jsonEscapeString (s : String) : String :=
  String.mk ((s.data.map jsonEscapeChar).flatten)

/-- `serde_json::to_string(&tags)`: the JSON array text stored in the `tags` column. -/
def tagsJson (tags : List String) : String :=
  "[" ++ String.intercalate "," (tags.map (fun t => "\"" ++ jsonEscapeString t ++ "\"")) ++ "]"

/-- The `WHERE` clause assembled by `search_notes` (`db.rs`), applied to one row.
Mirrors the SQL: deleted filter, `content LIKE '%'||text||'%'`, date range on the
`date` column (a `NULL` date fails a range comparison), and for each query tag
`tags LIKE '%"'||tag||'%'` against the JSON-encoded tag column. -/
def noteMatches (q : SearchQuery) (n : Note) : Bool :=
  (q.include_deleted || n.deleted_at.isNone) &&
  (match q.text with
   | none => true
   | some t => likeMatchStr ("%" ++ t ++ "%") n.content) &&
  (match q.date_from with
   | none => true
   | some d =>
     match n.date with
     | none => false
     | some nd => decide (d ≤ nd)) &&
  (match q.date_to with
   | none => true
   | some d =>
     match n.date with
     | none => false
     | some nd => decide (nd ≤ d)) &&
  q.tags.all (fun tag => likeMatchStr ("%\"" ++ tag ++ "%") (tagsJson n.tags))

/-- `search_notes` (`db.rs`): filter, `ORDER BY updated_at DESC`, optional `LIMIT`. -/
def searchNotes (s : List Note) (q : SearchQuery) : List Note :=
  let rows := s.filter (noteMatches q)
  let ordered := List.insertionSort (fun a b => b.updated_at ≤ a.updated_at) rows
  match q.limit with
  | some k => ordered.take k
  | none => ordered

/-- `create_note` (`db.rs`).  The fresh ULID and clock reading are parameters.
`INSERT` fails if a row with the id already exists (primary key), hence `Option`. -/
def createNote (s : List Note) (id : String) (content : String) (tags : List String)
    (date : Option String) (now : Int) : Option (List Note × Note) :=
  if (getNoteById s id).isSome then none
  else
    let note : Note :=
      { id := id, content := content, tags := tags, date := date,
        created_at := now, updated_at := now, deleted_at := none }
    some (s ++ [note], note)

/-- `update_note` (`db.rs`): `UPDATE notes SET content, tags, date, updated_at WHERE id = ?`. -/
def updateNote (s : List Note) (id : String) (content : String) (tags : List String)
    (date : Option String) (now : Int) : List Note :=
  s.map (fun n =>
    if n.id == id then
      { n with content := content, tags := tags, date := date, updated_at := now }
    else n)

/-- `soft_delete_note` (`db.rs`): `UPDATE notes SET deleted_at = now, updated_at = now WHERE id = ?`. -/
def softDeleteNote (s : List Note) (id : String) (now : Int) : List Note :=
  s.map (fun n =>
    if n.id == id then { n with deleted_at := some now, updated_at := now } else n)

/-- `get_notes_since` (`db.rs`): rows with `updated_at > ?1`, `ORDER BY updated_at ASC`. -/
def getNotesSince (s : List Note) (timestamp : Int) : List Note :=
  List.insertionSort (fun a b => a.updated_at ≤ b.updated_at)
    (s.filter (fun n => timestamp < n.updated_at))

/-- `upsert_note` (`db.rs`): insert when absent; when present overwrite the whole
row only if the incoming `updated_at` is strictly greater. -/
def upsertNote (s : List Note) (note : Note) : List Note :=
  match getNoteById s note.id with
  | some existing =>
    if note.updated_at > existing.updated_at then
      s.map (fun n => if n.id == note.id then note else n)
    else s
  | none => s ++ [note]

/-- Loop state of `merge_notes` (`sync.rs`). -/
structure MergeState where
  store : List Note
  notesToSend : List Note
  clientNoteIds : List String
deriving DecidableEq

/-- One iteration of the client-note loop in `merge_notes` (`sync.rs`). -/
def mergeStep (st : MergeState) (clientNote : Note) : MergeState :=
  let ids := st.clientNoteIds ++ [clientNote.id]
  match getNoteById st.store clientNote.id with
  | none =>
    { store := upsertNote st.store clientNote, notesToSend := st.notesToSend,
      clientNoteIds := ids }
  | some serverNote =>
    if clientNote.updated_at > serverNote.updated_at then
      { store := upsertNote st.store clientNote, notesToSend := st.notesToSend,
        clientNoteIds := ids }
    else if serverNote.updated_at > clientNote.updated_at then
      { store := st.store, notesToSend := st.notesToSend ++ [serverNote],
        clientNoteIds := ids }
    else
      { store := st.store, notesToSend := st.notesToSend, clientNoteIds := ids }

/-- One iteration of the second loop of `merge_notes`: add a server note unless
its id was sent by the client or is already queued for response. -/
def respondStep (clientNoteIds : List String) (acc : List Note) (note : Note) : List Note :=
  if !(clientNoteIds.contains note.id) && !(acc.any (fun n => n.id == note.id)) then
    acc ++ [note]
  else acc

/-- `merge_notes` (`sync.rs`): returns `(notes_to_send, store after the round)`. -/
def mergeNotes (s : List Note) (clientNotes : List Note) (clientLastSync : Int) :
    List Note × List Note :=
  let st := clientNotes.foldl mergeStep ⟨s, [], []⟩
  let serverNewNotes := getNotesSince st.store clientLastSync
  (serverNewNotes.foldl (respondStep st.clientNoteIds) st.notesToSend, st.store)

/-- The two migration batches of `core/src/schema.rs`. -/
inductive MigrationBatch where
  | schemaV1
  | migrationV1ToV2
deriving DecidableEq

inductive MigrateError where
  | invalidQuery
deriving DecidableEq

/-- `migrate` (`schema.rs`), as a function of the persisted `user_version`:
returns the batches passed to `execute_batch`, in order, and the final outcome. -/
def migrate (version : Int) : List MigrationBatch × Except MigrateError Unit :=
  let p := if version = 0 then ((1 : Int), [MigrationBatch.schemaV1]) else (version, [])
  let q := if p.1 = 1 then ((2 : Int), p.2 ++ [MigrationBatch.migrationV1ToV2]) else p
  if q.1 = 2 then (q.2, Except.ok ()) else (q.2, Except.error MigrateError.invalidQuery)

/-- Literal (case-sensitive) substring test, used to state what `LIKE` is not. -/
def containsSubstring (needle hay : List Char) : Bool :=
  (suffixes hay).any (fun t => needle.isPrefixOf t)

/-! Concrete rows and queries used to evaluate the operations at specific inputs. -/

def artfulNote : Note := ⟨"01A", "painting", ["artful"], none, 1, 1, none⟩

def cartNote : Note := ⟨"01B", "groceries", ["cart"], none, 1, 1, none⟩

def tagArtQuery : SearchQuery := ⟨none, ["art"], none, none, false, none⟩

def milkNote : Note := ⟨"01C", "Buy Milk today", [], none, 1, 1, none⟩

def milkQuery : SearchQuery := ⟨some "milk", [], none, none, false, none⟩

def aXbNote : Note := ⟨"01D", "aXb", [], none, 1, 1, none⟩

def wildcardQuery : SearchQuery := ⟨some "a%b", [], none, none, false, none⟩

def serverNoteX : Note := ⟨"X", "server copy", [], none, 1, 10, none⟩

def clientNoteX5 : Note := ⟨"X", "client v5", [], none, 1, 5, none⟩

def clientNoteX3 : Note := ⟨"X", "client v3", [], none, 1, 3, none⟩

def dupTagNote : Note := ⟨"01E", "chore", ["a", "a"], none, 5, 5, none⟩

end Jot

namespace Jot

/-- C2: the tag filter `tags LIKE '%"<tag>%'` anchors only at an opening quote,
so a queried tag matches any stored tag having it as a prefix: a note tagged
only "artful" is returned for a query on tag "art" although "art" is not a
member of its tag set (the quoted "cart"/"art" case itself does not match,
because "art" does not start a tag there). -/
theorem tag_filter_prefix_match_bug :
    searchNotes [artfulNote] tagArtQuery = [artfulNote]
    ∧ "art" ∉ artfulNote.tags
    ∧ searchNotes [cartNote] tagArtQuery = [] := by
  refine ⟨by decide, by decide, by decide⟩

/-- C3 counterexample: the text filter is SQLite `LIKE`, which compares ASCII
letters case-insensitively; a note whose content contains "Milk" (but not
"milk") is returned for the query text "milk", contradicting case-sensitive
substring semantics. -/
theorem text_filter_case_counterexample :
    searchNotes [milkNote] milkQuery = [milkNote]
    ∧ containsSubstring "milk".data milkNote.content.data = false := by
  refine ⟨by decide, by decide⟩

/-- C10: the query text is interpolated into the `LIKE` pattern, so `%` in the
query acts as a wildcard: text "a%b" matches a note whose content is "aXb",
which does not contain "a%b" literally. -/
theorem text_filter_wildcard :
    searchNotes [aXbNote] wildcardQuery = [aXbNote]
    ∧ containsSubstring "a%b".data aXbNote.content.data = false := by
  refine ⟨by decide, by decide⟩

/-- C6: `migrate` refuses any persisted version above the highest known
version 2, applying no batch and returning the error; from version 0 it applies
the initial schema and then the single forward migration, in order, ending at
version 2. -/
theorem migrate_version_behavior :
    (∀ v : Int, 2 < v → migrate v = ([], Except.error MigrateError.invalidQuery))
    ∧ migrate 0 = ([MigrationBatch.schemaV1, MigrationBatch.migrationV1ToV2], Except.ok ()) := by
  constructor
  · intro v hv
    have h0 : ¬ v = 0 := by omega
    have h1 : ¬ v = 1 := by omega
    have h2 : ¬ v = 2 := by omega
    simp [migrate, h0, h1, h2]
  · rfl

theorem migrate_version_behavior_witness :
    migrate 3 = ([], Except.error MigrateError.invalidQuery)
    ∧ migrate 0 = ([MigrationBatch.schemaV1, MigrationBatch.migrationV1ToV2], Except.ok ()) :=
  ⟨migrate_version_behavior.1 3 (by decide), migrate_version_behavior.2⟩

/-- C4 counterexample: when the client batch repeats an id, the first loop of
`merge_notes` pushes the server's copy once per occurrence, so the response
contains the same id twice. -/
theorem merge_duplicate_ids_counterexample :
    (mergeNotes [serverNoteX] [clientNoteX5, clientNoteX3] 0).1 = [serverNoteX, serverNoteX]
    ∧ ¬ List.Pairwise (fun a b : Note => a.id ≠ b.id)
        (mergeNotes [serverNoteX] [clientNoteX5, clientNoteX3] 0).1 := by
  refine ⟨by decide, by decide⟩

/-- Looking an id up after appending rows: the right part decides when the left
part has no row with the id. -/
theorem getNoteById_append (s l : List Note) (k : String) (h : getNoteById s k = none) :
    getNoteById (s ++ l) k = getNoteById l k := by
  unfold getNoteById at h ⊢
  rw [List.find?_append, h]
  rfl

/-- C8 amended: `create` followed by `read_by_id` of the fresh id returns a note
with matching content, tags exactly as passed in (hence set-equal, but duplicate
tags are preserved, not collapsed), matching date, `created_at = updated_at`,
and `deleted_at` absent. -/
theorem create_then_read (s : List Note) (id content : String) (tags : List String)
    (date : Option String) (now : Int) (hfresh : getNoteById s id = none) :
    ∃ s' note, createNote s id content tags date now = some (s', note)
      ∧ getNoteById s' id = some note
      ∧ note.content = content ∧ note.tags = tags ∧ note.date = date
      ∧ note.created_at = note.updated_at ∧ note.deleted_at = none := by
  refine ⟨s ++ [⟨id, content, tags, date, now, now, none⟩],
    ⟨id, content, tags, date, now, now, none⟩, ?_, ?_, rfl, rfl, rfl, rfl, rfl⟩
  · simp [createNote, hfresh]
  · rw [getNoteById_append s _ id hfresh]
    simp [getNoteById]

theorem create_then_read_witness :
    ∃ s' note, createNote [] "01F" "hello" ["t", "t"] (some "2025-01-02") 7 = some (s', note)
      ∧ getNoteById s' "01F" = some note
      ∧ note.content = "hello" ∧ note.tags = ["t", "t"] ∧ note.date = some "2025-01-02"
      ∧ note.created_at = note.updated_at ∧ note.deleted_at = none :=
  create_then_read [] "01F" "hello" ["t", "t"] (some "2025-01-02") 7 (by decide)

/-- C7: `update` rewrites content, tags, date and `updated_at` of every row
whose id matches, leaves `created_at` and `deleted_at` of that row and every
other row untouched, and is a silent no-op when no row has the id. -/
theorem update_note_frame (s : List Note) (id content : String) (tags : List String)
    (date : Option String) (now : Int) :
    List.Forall₂ (fun old new =>
        (old.id ≠ id → new = old)
        ∧ (old.id = id → new.id = old.id ∧ new.created_at = old.created_at
            ∧ new.deleted_at = old.deleted_at ∧ new.content = content
            ∧ new.tags = tags ∧ new.date = date ∧ new.updated_at = now))
      s (updateNote s id content tags date now)
    ∧ ((∀ n ∈ s, n.id ≠ id) → updateNote s id content tags date now = s) := by
  constructor
  · rw [updateNote, List.forall₂_map_right_iff, List.forall₂_same]
    intro n _
    by_cases h : n.id = id
    · simp [h]
    · simp [h]
  · intro hall
    rw [updateNote]
    conv_rhs => rw [← List.map_id s]
    refine List.map_congr_left fun n hn => ?_
    simp [hall n hn]

theorem update_note_frame_witness :
    updateNote [milkNote, aXbNote] "none-such" "new" [] none 9 = [milkNote, aXbNote] :=
  (update_note_frame [milkNote, aXbNote] "none-such" "new" [] none 9).2 (by decide)

/-- A query with `include_deleted` set and no other filter accepts every row. -/
theorem noteMatches_all_query (n : Note) :
    noteMatches ⟨none, [], none, none, true, none⟩ n = true := by
  simp [noteMatches]

/-- C9: `soft_delete` sets `deleted_at = updated_at = now` on every row with the
id while leaving its other fields and all other rows unchanged; repeating it
just refreshes both timestamps (a second call equals a single call at the later
time); it is a silent no-op on an absent id; it never changes the number of
rows carrying the id (one tombstone, not two); and the tombstone is still found
by `read_by_id` and by a `search` with `include_deleted = true`. -/
theorem soft_delete_behavior (s : List Note) (id : String) (now t₁ t₂ : Int) :
    List.Forall₂ (fun old new =>
        (old.id ≠ id → new = old)
        ∧ (old.id = id → new = { old with deleted_at := some now, updated_at := now }))
      s (softDeleteNote s id now)
    ∧ softDeleteNote (softDeleteNote s id t₁) id t₂ = softDeleteNote s id t₂
    ∧ ((∀ n ∈ s, n.id ≠ id) → softDeleteNote s id now = s)
    ∧ (softDeleteNote s id now).countP (fun n => n.id == id) =
        s.countP (fun n => n.id == id)
    ∧ (∀ e, getNoteById s id = some e →
        getNoteById (softDeleteNote s id now) id =
          some { e with deleted_at := some now, updated_at := now })
    ∧ (∀ e, getNoteById s id = some e →
        { e with deleted_at := some now, updated_at := now } ∈
          searchNotes (softDeleteNote s id now) ⟨none, [], none, none, true, none⟩) := by
  refine ⟨?_, ?_, ?_, ?_, ?_, ?_⟩
  · rw [softDeleteNote, List.forall₂_map_right_iff, List.forall₂_same]
    intro n _
    by_cases h : n.id = id
    · simp [h]
    · simp [h]
  · simp only [softDeleteNote, List.map_map]
    refine List.map_congr_left fun n _ => ?_
    by_cases h : n.id = id
    · simp [h]
    · simp [h]
  · intro hall
    rw [softDeleteNote]
    conv_rhs => rw [← List.map_id s]
    refine List.map_congr_left fun n hn => ?_
    simp [hall n hn]
  · rw [softDeleteNote, List.countP_map]
    refine List.countP_congr fun n _ => ?_
    by_cases h : n.id = id
    · simp [h]
    · simp [h]
  · intro e he
    unfold getNoteById at he ⊢
    rw [softDeleteNote, List.find?_map]
    have hfun : ((fun n : Note => n.id == id) ∘
        (fun n : Note => if n.id == id then { n with deleted_at := some now, updated_at := now }
          else n)) = fun n : Note => n.id == id := by
      funext n
      by_cases h : n.id = id
      · simp [h]
      · simp [h]
    rw [hfun, he]
    have hbeta := @List.find?_some Note (fun n : Note => n.id == id) e s he
    have heq : e.id = id := by simpa using hbeta
    simp [heq]
  · intro e he
    simp only [getNoteById] at he
    have hmem : e ∈ s := List.mem_of_find?_eq_some he
    have hid' := @List.find?_some Note (fun n : Note => n.id == id) e s he
    have hid : (e.id == id) = true := by simpa using hid'
    have hmem' : { e with deleted_at := some now, updated_at := now } ∈ softDeleteNote s id now := by
      rw [softDeleteNote]
      have := List.mem_map_of_mem
        (fun n : Note => if n.id == id then { n with deleted_at := some now, updated_at := now }
          else n) hmem
      simpa [hid] using this
    simp only [searchNotes, List.mem_insertionSort, List.mem_filter]
    exact ⟨hmem', noteMatches_all_query _⟩

theorem soft_delete_behavior_witness :
    getNoteById (softDeleteNote [milkNote, aXbNote] "01C" 42) "01C" =
      some { milkNote with deleted_at := some 42, updated_at := 42 } :=
  (soft_delete_behavior [milkNote, aXbNote] "01C" 42 0 0).2.2.2.2.1 milkNote (by decide)

/-- Upserting into a store with no row for the note's id inserts it. -/
theorem getNoteById_upsert_absent (s : List Note) (n : Note)
    (h : getNoteById s n.id = none) : getNoteById (upsertNote s n) n.id = some n := by
  simp only [upsertNote, h]
  rw [getNoteById_append s _ _ h]
  simp [getNoteById]

/-- Upserting over an existing row keeps whichever copy has the strictly
greater `updated_at` (ties keep the existing row). -/
theorem getNoteById_upsert_present (s : List Note) (n e : Note)
    (h : getNoteById s n.id = some e) :
    getNoteById (upsertNote s n) n.id =
      some (if n.updated_at > e.updated_at then n else e) := by
  simp only [upsertNote, h]
  by_cases hgt : n.updated_at > e.updated_at
  · simp only [if_pos hgt]
    unfold getNoteById at h ⊢
    rw [List.find?_map]
    have hfun : ((fun x : Note => x.id == n.id) ∘
        (fun x : Note => if x.id == n.id then n else x)) = fun x : Note => x.id == n.id := by
      funext x
      by_cases hx : x.id = n.id
      · simp [hx]
      · simp [hx]
    rw [hfun, h]
    have hbeta := @List.find?_some Note (fun x : Note => x.id == n.id) e s h
    have heq : e.id = n.id := by simpa using hbeta
    simp [heq]
  · simp only [if_neg hgt]
    exact h

/-- Upserting a copy that is not strictly newer leaves the store unchanged. -/
theorem upsert_stale (s : List Note) (n e : Note) (h : getNoteById s n.id = some e)
    (hle : ¬ n.updated_at > e.updated_at) : upsertNote s n = s := by
  simp only [upsertNote, h, if_neg hle]

/-- Folding upserts drawn from a fixed pair over a store already holding one of
the pair: the row ends at `b` (the strictly newer copy) exactly when `b` has
been seen, and stays `a` otherwise. -/
theorem fold_upsert_pair (a b : Note) (hid : b.id = a.id) (hlt : a.updated_at < b.updated_at) :
    ∀ (l : List Note) (s : List Note) (c : Note),
      (∀ x ∈ l, x = a ∨ x = b) → (c = a ∨ c = b) →
      getNoteById s a.id = some c →
      getNoteById (l.foldl upsertNote s) a.id = some (if c = b ∨ b ∈ l then b else a) := by
  have hab : a ≠ b := by
    intro h
    rw [h] at hlt
    exact lt_irrefl _ hlt
  intro l
  induction l with
  | nil =>
    intro s c hl hc hfind
    simp only [List.foldl_nil]
    rcases hc with rfl | rfl
    · rw [if_neg]
      · exact hfind
      · simp [hab]
    · rw [if_pos (Or.inl rfl)]
      exact hfind
  | cons x rest ih =>
    intro s c hl hc hfind
    have hx := hl x (List.mem_cons_self x rest)
    have hrest : ∀ y ∈ rest, y = a ∨ y = b := fun y hy => hl y (List.mem_cons_of_mem _ hy)
    simp only [List.foldl_cons]
    have hx_id : x.id = a.id := by
      rcases hx with h | h
      · rw [h]
      · rw [h]
        exact hid
    have hfind_x : getNoteById s x.id = some c := by rw [hx_id]; exact hfind
    have h1 : getNoteById (upsertNote s x) a.id =
        some (if x.updated_at > c.updated_at then x else c) := by
      have hp := getNoteById_upsert_present s x c hfind_x
      rw [hx_id] at hp
      exact hp
    have hmemiff : (c = b ∨ b ∈ x :: rest) ↔ (c = b ∨ b ∈ rest) ∨ b = x := by
      constructor
      · rintro (h | h)
        · exact Or.inl (Or.inl h)
        · rcases List.mem_cons.mp h with h' | h'
          · exact Or.inr h'
          · exact Or.inl (Or.inr h')
      · rintro ((h | h) | h)
        · exact Or.inl h
        · exact Or.inr (List.mem_cons_of_mem _ h)
        · exact Or.inr (h ▸ List.mem_cons_self x rest)
    rcases hx with hxa | hxb
    · rcases hc with hca | hcb
      · have h1' : getNoteById (upsertNote s x) a.id = some c := by
          rw [h1, hxa, hca, if_neg (lt_irrefl a.updated_at)]
        have h2 := ih (upsertNote s x) c hrest (Or.inl hca) h1'
        rw [h2]
        have hcond : (c = b ∨ b ∈ x :: rest) ↔ (c = b ∨ b ∈ rest) := by
          rw [hmemiff]
          constructor
          · rintro (h | h)
            · exact h
            · exact absurd (h.trans hxa).symm hab
          · exact Or.inl
        exact congrArg some (if_congr hcond.symm rfl rfl)
      · have h1' : getNoteById (upsertNote s x) a.id = some c := by
          rw [h1, hxa, hcb, if_neg (by omega)]
        have h2 := ih (upsertNote s x) c hrest (Or.inr hcb) h1'
        rw [h2, if_pos (Or.inl hcb), if_pos (Or.inl hcb)]
    · rcases hc with hca | hcb
      · have h1' : getNoteById (upsertNote s x) a.id = some b := by
          rw [h1, hxb, hca, if_pos hlt]
        have h2 := ih (upsertNote s x) b hrest (Or.inr rfl) h1'
        rw [h2, if_pos (Or.inl rfl), if_pos (Or.inr (hxb ▸ List.mem_cons_self x rest))]
      · have h1' : getNoteById (upsertNote s x) a.id = some c := by
          rw [h1, hxb, hcb, if_neg (lt_irrefl b.updated_at)]
        have h2 := ih (upsertNote s x) c hrest (Or.inr hcb) h1'
        rw [h2, if_pos (Or.inl hcb), if_pos (Or.inl hcb)]

/-- C1: starting from a store with no row for the shared id, any sequence of
upserts drawn from a pair of notes with that id and distinct `updated_at`, in
any order and with any repetitions, as long as both appear, leaves exactly the
strictly newer copy persisted; and an upsert whose `updated_at` equals the
existing row's leaves the store unchanged (ties favor the persisted copy). -/
theorem upsert_lww_merge :
    (∀ (a b : Note) (l : List Note) (s : List Note),
        b.id = a.id → a.updated_at < b.updated_at →
        (∀ x ∈ l, x = a ∨ x = b) → a ∈ l → b ∈ l →
        getNoteById s a.id = none →
        getNoteById (l.foldl upsertNote s) a.id = some b)
    ∧ (∀ (n e : Note) (s : List Note),
        getNoteById s n.id = some e → n.updated_at = e.updated_at →
        upsertNote s n = s) := by
  constructor
  · intro a b l s hid hlt hmem _ hb hnone
    cases l with
    | nil => exact absurd hb (List.not_mem_nil b)
    | cons x rest =>
      have hx := hmem x (List.mem_cons_self x rest)
      have hrest : ∀ y ∈ rest, y = a ∨ y = b := fun y hy => hmem y (List.mem_cons_of_mem _ hy)
      simp only [List.foldl_cons]
      have hx_id : x.id = a.id := by
        rcases hx with h | h
        · rw [h]
        · rw [h]
          exact hid
      have h1 : getNoteById (upsertNote s x) a.id = some x := by
        have hn : getNoteById s x.id = none := by rw [hx_id]; exact hnone
        have := getNoteById_upsert_absent s x hn
        rw [hx_id] at this
        exact this
      have h2 := fold_upsert_pair a b hid hlt rest (upsertNote s x) x hrest hx h1
      rw [h2]
      rcases List.mem_cons.mp hb with h | h
      · rw [if_pos (Or.inl h.symm)]
      · rw [if_pos (Or.inr h)]
  · intro n e s h heq
    exact upsert_stale s n e h (by omega)

def pairOldNote : Note := ⟨"P", "older copy", [], none, 1, 5, none⟩

def pairNewNote : Note := ⟨"P", "newer copy", ["t"], none, 1, 9, none⟩

theorem upsert_lww_merge_witness :
    getNoteById ([pairOldNote, pairNewNote, pairOldNote].foldl upsertNote []) pairOldNote.id =
      some pairNewNote
    ∧ upsertNote [pairNewNote] pairNewNote = [pairNewNote] :=
  ⟨upsert_lww_merge.1 pairOldNote pairNewNote [pairOldNote, pairNewNote, pairOldNote] []
      rfl (by decide) (by decide) (by decide) (by decide) rfl,
    upsert_lww_merge.2 pairNewNote pairNewNote [pairNewNote] (by decide) rfl⟩

/-- A row found by id lookup carries that id. -/
theorem getNoteById_id (s : List Note) (k : String) (n : Note)
    (h : getNoteById s k = some n) : n.id = k := by
  have hbeta := @List.find?_some Note (fun x : Note => x.id == k) n s h
  simpa using hbeta

/-- With no client-sent ids, folding the response filter over a list of rows
with pairwise-distinct ids and ids disjoint from the accumulator appends all
of them. -/
theorem respond_fold_empty_ids :
    ∀ (l acc : List Note),
      (∀ x ∈ l, ∀ y ∈ acc, y.id ≠ x.id) →
      List.Pairwise (fun x y : Note => x.id ≠ y.id) l →
      l.foldl (respondStep []) acc = acc ++ l := by
  intro l
  induction l with
  | nil =>
    intro acc _ _
    simp
  | cons x rest ih =>
    intro acc hdisj hpw
    simp only [List.foldl_cons]
    have hany : acc.any (fun n => n.id == x.id) = false := by
      rw [List.any_eq_false]
      intro y hy
      simpa using hdisj x (List.mem_cons_self x rest) y hy
    have hstep : respondStep [] acc x = acc ++ [x] := by
      rw [respondStep]
      simp [hany]
    rw [hstep, ih (acc ++ [x]) ?_ hpw.of_cons]
    · simp
    · intro z hz y hy
      rcases List.mem_append.mp hy with h | h
      · exact hdisj z (List.mem_cons_of_mem _ hz) y h
      · have hyx : y = x := by simpa using h
        rw [hyx]
        exact List.rel_of_pairwise_cons hpw hz

/-- C5: a sync round with an empty client batch performs no writes and returns
exactly `since(T)`: every note with `updated_at > T`, tombstones included,
ascending by `updated_at` (assuming the store's ids are unique, as the primary
key guarantees). -/
theorem sync_empty_batch (s : List Note) (T : Int)
    (hids : List.Pairwise (fun x y : Note => x.id ≠ y.id) s) :
    mergeNotes s [] T = (getNotesSince s T, s) := by
  have hsymm : ∀ {x y : Note}, x.id ≠ y.id → y.id ≠ x.id := fun h => h.symm
  have hpw : List.Pairwise (fun x y : Note => x.id ≠ y.id) (getNotesSince s T) := by
    rw [getNotesSince]
    exact (List.Perm.pairwise_iff hsymm (List.perm_insertionSort _ _)).mpr
      (hids.filter _)
  simp only [mergeNotes, List.foldl_nil]
  rw [respond_fold_empty_ids (getNotesSince s T) [] (by intro x _ y hy; cases hy) hpw]
  simp

theorem sync_empty_batch_witness :
    mergeNotes [milkNote, serverNoteX] [] 0 =
      (getNotesSince [milkNote, serverNoteX] 0, [milkNote, serverNoteX]) :=
  sync_empty_batch [milkNote, serverNoteX] 0 (by decide)

/-- The client-id list accumulated by one `merge_notes` loop iteration. -/
theorem mergeStep_clientNoteIds (st : MergeState) (c : Note) :
    (mergeStep st c).clientNoteIds = st.clientNoteIds ++ [c.id] := by
  cases hlook : getNoteById st.store c.id with
  | none => simp only [mergeStep, hlook]
  | some sn =>
    by_cases h1 : c.updated_at > sn.updated_at
    · simp only [mergeStep, hlook, if_pos h1]
    · by_cases h2 : sn.updated_at > c.updated_at
      · simp only [mergeStep, hlook, if_neg h1, if_pos h2]
      · simp only [mergeStep, hlook, if_neg h1, if_neg h2]

/-- One `merge_notes` loop iteration keeps response ids pairwise distinct and
within the set of client ids seen so far, provided the current client id is
new. -/
theorem mergeStep_notesToSend (st : MergeState) (c : Note)
    (h3 : List.Pairwise (fun x y : Note => x.id ≠ y.id) st.notesToSend)
    (h4 : ∀ n ∈ st.notesToSend, n.id ∈ st.clientNoteIds)
    (hcfresh : ¬ c.id ∈ st.clientNoteIds) :
    List.Pairwise (fun x y : Note => x.id ≠ y.id) (mergeStep st c).notesToSend
    ∧ ∀ n ∈ (mergeStep st c).notesToSend, n.id ∈ st.clientNoteIds ++ [c.id] := by
  cases hlook : getNoteById st.store c.id with
  | none =>
    simp only [mergeStep, hlook]
    exact ⟨h3, fun n hn => List.mem_append_left _ (h4 n hn)⟩
  | some sn =>
    by_cases h1 : c.updated_at > sn.updated_at
    · simp only [mergeStep, hlook, if_pos h1]
      exact ⟨h3, fun n hn => List.mem_append_left _ (h4 n hn)⟩
    · by_cases h2 : sn.updated_at > c.updated_at
      · simp only [mergeStep, hlook, if_neg h1, if_pos h2]
        have hsnid : sn.id = c.id := getNoteById_id _ _ _ hlook
        constructor
        · rw [List.pairwise_append]
          refine ⟨h3, List.pairwise_singleton _ _, ?_⟩
          intro a ha b hb
          have hb' : b = sn := by simpa using hb
          rw [hb', hsnid]
          intro heq
          exact hcfresh (heq ▸ h4 a ha)
        · intro n hn
          rcases List.mem_append.mp hn with h | h
          · exact List.mem_append_left _ (h4 n h)
          · have hn' : n = sn := by simpa using h
            rw [hn', hsnid]
            exact List.mem_append_right _ (List.mem_singleton_self _)
      · simp only [mergeStep, hlook, if_neg h1, if_neg h2]
        exact ⟨h3, fun n hn => List.mem_append_left _ (h4 n hn)⟩

/-- Invariant of the whole first `merge_notes` loop: with pairwise-distinct,
unseen client ids, the response stays pairwise distinct in id and inside the
seen client ids. -/
theorem step1_inv (cl : List Note) :
    ∀ (st : MergeState),
      List.Pairwise (fun x y : Note => x.id ≠ y.id) cl →
      (∀ x ∈ cl, ¬ x.id ∈ st.clientNoteIds) →
      List.Pairwise (fun x y : Note => x.id ≠ y.id) st.notesToSend →
      (∀ n ∈ st.notesToSend, n.id ∈ st.clientNoteIds) →
      List.Pairwise (fun x y : Note => x.id ≠ y.id) (cl.foldl mergeStep st).notesToSend
      ∧ ∀ n ∈ (cl.foldl mergeStep st).notesToSend,
          n.id ∈ (cl.foldl mergeStep st).clientNoteIds := by
  induction cl with
  | nil =>
    intro st _ _ h3 h4
    exact ⟨h3, h4⟩
  | cons c rest ih =>
    intro st hpw hfresh h3 h4
    simp only [List.foldl_cons]
    have hcid := mergeStep_clientNoteIds st c
    have hcfresh : ¬ c.id ∈ st.clientNoteIds := hfresh c (List.mem_cons_self c rest)
    have hsend := mergeStep_notesToSend st c h3 h4 hcfresh
    refine ih (mergeStep st c) hpw.of_cons ?_ hsend.1 ?_
    · intro x hx
      rw [hcid]
      intro hmem
      rcases List.mem_append.mp hmem with h | h
      · exact hfresh x (List.mem_cons_of_mem _ hx) h
      · have hxc : x.id = c.id := by simpa using h
        exact List.rel_of_pairwise_cons hpw hx hxc.symm
    · intro n hn
      rw [hcid]
      exact hsend.2 n hn

/-- The second `merge_notes` loop never introduces an id already queued. -/
theorem respond_fold_pairwise (ids : List String) :
    ∀ (l acc : List Note),
      List.Pairwise (fun x y : Note => x.id ≠ y.id) acc →
      List.Pairwise (fun x y : Note => x.id ≠ y.id) (l.foldl (respondStep ids) acc) := by
  intro l
  induction l with
  | nil =>
    intro acc h
    exact h
  | cons x rest ih =>
    intro acc h
    simp only [List.foldl_cons]
    apply ih
    rw [respondStep]
    by_cases hcond : (!(ids.contains x.id) && !(acc.any (fun n => n.id == x.id))) = true
    · rw [if_pos hcond]
      simp only [Bool.and_eq_true, Bool.not_eq_true'] at hcond
      rw [List.pairwise_append]
      refine ⟨h, List.pairwise_singleton _ _, ?_⟩
      intro a ha b hb
      have hb' : b = x := by simpa using hb
      rw [hb']
      have := List.any_eq_false.mp hcond.2 a ha
      simpa using this
    · rw [if_neg hcond]
      exact h

/-- C4 amended: when the client batch has pairwise-distinct ids, the `merge_notes`
response contains at most one entry per note id (with a repeated client id the
server copy can be queued once per occurrence — see the counterexample). -/
theorem merge_response_distinct_ids (s cl : List Note) (T : Int)
    (hc : List.Pairwise (fun x y : Note => x.id ≠ y.id) cl) :
    List.Pairwise (fun x y : Note => x.id ≠ y.id) (mergeNotes s cl T).1 := by
  have hinv := step1_inv cl ⟨s, [], []⟩ hc (by intro x _ h; cases h) List.Pairwise.nil
    (by intro n hn; cases hn)
  simp only [mergeNotes]
  exact respond_fold_pairwise _ _ _ hinv.1

theorem merge_response_distinct_ids_witness :
    List.Pairwise (fun x y : Note => x.id ≠ y.id)
      (mergeNotes [serverNoteX] [clientNoteX5] 0).1 :=
  merge_response_distinct_ids [serverNoteX] [clientNoteX5] 0 (by decide)

/-- The empty list is a suffix of every list. -/
theorem nil_mem_suffixes : ∀ s : List Char, [] ∈ suffixes s := by
  intro s
  induction s with
  | nil => simp [suffixes]
  | cons c cs ih => simp [suffixes, ih]

/-- Suffixes commute with mapping a character function. -/
theorem suffixes_map (f : Char → Char) :
    ∀ s : List Char, suffixes (s.map f) = (suffixes s).map (List.map f) := by
  intro s
  induction s with
  | nil => simp [suffixes]
  | cons c cs ih => simp [suffixes, ih]

/-- Matching a wildcard-free literal followed by `%` is exactly a prefix test
on the case-folded strings. -/
theorem likeMatch_literal_prefix :
    ∀ (t s : List Char), (∀ c ∈ t, c ≠ '%' ∧ c ≠ '_') →
      (likeMatch (t ++ ['%']) s = true ↔
        List.isPrefixOf (t.map likeFoldChar) (s.map likeFoldChar) = true) := by
  intro t
  induction t with
  | nil =>
    intro s _
    simp only [List.nil_append, List.map_nil]
    constructor
    · intro _
      simp [List.isPrefixOf]
    · intro _
      show ((suffixes s).any fun u => likeMatch [] u) = true
      rw [List.any_eq_true]
      exact ⟨[], nil_mem_suffixes s, by simp [likeMatch]⟩
  | cons c t ih =>
    intro s hw
    have hc := hw c (List.mem_cons_self c t)
    have hwt : ∀ x ∈ t, x ≠ '%' ∧ x ≠ '_' := fun x hx => hw x (List.mem_cons_of_mem _ hx)
    cases s with
    | nil =>
      constructor
      · intro h
        rw [List.cons_append] at h
        simp [likeMatch, hc.1] at h
      · intro h
        simp [List.isPrefixOf] at h
    | cons d ds =>
      have hlhs : likeMatch ((c :: t) ++ ['%']) (d :: ds) =
          ((likeFoldChar c == likeFoldChar d) && likeMatch (t ++ ['%']) ds) := by
        rw [List.cons_append]
        simp [likeMatch, hc.1, hc.2]
      have hrhs : List.isPrefixOf ((c :: t).map likeFoldChar) ((d :: ds).map likeFoldChar) =
          ((likeFoldChar c == likeFoldChar d) &&
            List.isPrefixOf (t.map likeFoldChar) (ds.map likeFoldChar)) := by
        simp [List.isPrefixOf_cons₂]
      rw [hlhs, hrhs, Bool.and_eq_true, Bool.and_eq_true]
      exact and_congr Iff.rfl (ih ds hwt)

/-- The full pattern `'%' ++ text ++ '%'` with wildcard-free text is exactly a
substring test on the case-folded strings. -/
theorem likeMatch_pattern_iff_substring (t s : List Char)
    (hw : ∀ c ∈ t, c ≠ '%' ∧ c ≠ '_') :
    likeMatch ('%' :: (t ++ ['%'])) s = true ↔
      containsSubstring (t.map likeFoldChar) (s.map likeFoldChar) = true := by
  have hlhs : likeMatch ('%' :: (t ++ ['%'])) s =
      (suffixes s).any (fun u => likeMatch (t ++ ['%']) u) := rfl
  rw [hlhs, containsSubstring, suffixes_map likeFoldChar s, List.any_map]
  rw [List.any_eq_true, List.any_eq_true]
  refine exists_congr fun u => and_congr_right fun _ => ?_
  simpa using likeMatch_literal_prefix t u hw

/-- C3 amended: for a query whose only filter is a text `t` containing no
`LIKE` wildcard (`%` or `_`), a note is returned exactly when `t` occurs as a
substring of its content under ASCII case folding — SQLite's default `LIKE` is
case-insensitive for ASCII letters, not case-sensitive. -/
theorem search_text_filter (s : List Note) (t : String) (n : Note)
    (hw : ∀ c ∈ t.data, c ≠ '%' ∧ c ≠ '_') :
    n ∈ searchNotes s ⟨some t, [], none, none, true, none⟩ ↔
      n ∈ s ∧
        containsSubstring (t.data.map likeFoldChar) (n.content.data.map likeFoldChar) = true := by
  have hq : noteMatches ⟨some t, [], none, none, true, none⟩ n =
      likeMatchStr ("%" ++ t ++ "%") n.content := by
    simp [noteMatches]
  have hdata : ("%" ++ t ++ "%").data = '%' :: (t.data ++ ['%']) := by
    simp [String.data_append]
  simp only [searchNotes]
  rw [List.mem_insertionSort, List.mem_filter]
  refine and_congr Iff.rfl ?_
  rw [hq]
  simp only [likeMatchStr]
  rw [hdata]
  exact likeMatch_pattern_iff_substring t.data n.content.data hw

theorem search_text_filter_witness :
    milkNote ∈ searchNotes [milkNote] ⟨some "milk", [], none, none, true, none⟩ :=
  (search_text_filter [milkNote] "milk" milkNote (by decide)).mpr ⟨by decide, by decide⟩

/-- C8 counterexample: `create_note` serializes the tag list verbatim, so
duplicate input tags are persisted and read back; the note returned by
`read_by_id` after `create` with tags ["a", "a"] has a duplicated tag list. -/
theorem create_duplicate_tags_counterexample :
    createNote [] "01E" "chore" ["a", "a"] none 5 = some ([dupTagNote], dupTagNote)
    ∧ getNoteById [dupTagNote] "01E" = some dupTagNote
    ∧ ¬ dupTagNote.tags.Nodup := by
  refine ⟨by decide, by decide, by decide⟩

end Jot
